import Mathlib

/-!
Verification of the PySyft encrypted decentralized ledger tutorial

Shallow embedding of the ledger classes defined in
`examples/tutorials/Part 7 - Build an Encrypted, Decentralized Ledger.ipynb`:

* `SimpleLedger` (Step 2, the plaintext ledger with a negative-balance check);
* `DecentralizedLedger` (Step 3, the secret-shared ledger).

Tensors (`sy.zeros(n).long()`, `sy.ones(n).long() * c`) are modelled as
`List Int`; element-wise tensor operations become `List.zipWith` / `List.map`.
The secret-sharing layer (`.share(*owners)`) is modelled by its plaintext
semantics: shares reconstruct to the shared value and every secure operation
(`+`, `*`, `<`, `.sum()`) computes the same function as its plaintext
counterpart, so a shared tensor is represented by the value it reconstructs to.
Python `IndexError` (raised by out-of-range tensor indexing) is modelled with
`Option`: `none` is an uncaught `IndexError`, `some` a normal return.

The tensors in the notebook are `LongTensor`s (int64).  The unbounded-integer
model above is exact whenever every value stays inside the int64 range; the
`Ledger64` model below is the faithful int64 semantics: element-wise tensor
arithmetic wraps modulo `2^64` into `[-2^63, 2^63)`, while storing a Python
int outside the int64 range into a tensor raises an overflow error (it does
not wrap), and out-of-range indexing raises `IndexError`.  Its `transact`
therefore returns `Except PyErr`.
-/

/-- Element-wise sum of two integer vectors (`tensor + tensor`). -/
def vadd (a b : List Int) : List Int := List.zipWith (· + ·) a b

/-- Multiplication of an integer vector by a scalar (`tensor * scalar`). -/
def vscale (a : List Int) (c : Int) : List Int := a.map (· * c)

/-- Element-wise product of two integer vectors (`tensor * tensor`). -/
def vmul (a b : List Int) : List Int := List.zipWith (· * ·) a b

/-- The count `(tensor < 0).sum()`: the number of strictly negative entries, as the
integer the subsequent tensor arithmetic sees. -/
def negCount (a : List Int) : Int := (a.countP (fun x => decide (x < 0)) : Nat)

/-- The count `(a < b).sum(0)` of the decentralized ledger: number of positions where
`a` is strictly below `b`. -/
def ltCount (a b : List Int) : Int :=
  ((List.zipWith (fun x y => if x < y then (1 : Int) else 0) a b).sum)

/-- Python/torch indexed assignment `xs[i] = v`: indices in `[0, len)` assign
directly, indices in `[-len, -1]` wrap around to `len + i`, anything else
raises `IndexError` (modelled as `none`). -/
def pySet (xs : List Int) (i : Int) (v : Int) : Option (List Int) :=
  if 0 ≤ i ∧ i < (xs.length : Int) then some (xs.set i.toNat v)
  else if -(xs.length : Int) ≤ i ∧ i < 0 then some (xs.set (i + xs.length).toNat v)
  else none

/-- The `SimpleLedger` state (Step 2 of the notebook): the append-only
`transactions` list (entry 0 is the initial balance vector) and the cached
`running_balance`. -/
structure SimpleLedger where
  num_accounts : Nat
  transactions : List (List Int)
  running_balance : List Int
  deriving Repr, DecidableEq

namespace SimpleLedger

/-- Python `compute_balances`: fold the whole log, starting from `transactions[0]`. -/
def compute_balances (l : SimpleLedger) : List Int :=
  match l.transactions with
  | [] => []
  | b :: ts => ts.foldl vadd b

/-- Python `SimpleLedger.__init__(num_accounts, starting_balance)`: seed the log with
`sy.ones(num_accounts).long() * starting_balance` and cache
`running_balance = compute_balances()` (which is just that seed). -/
def init (num_accounts : Nat) (starting_balance : Int) : SimpleLedger :=
  let initial_balances := List.replicate num_accounts starting_balance
  let l : SimpleLedger :=
    { num_accounts := num_accounts
      transactions := [initial_balances]
      running_balance := [] }
  { l with running_balance := l.compute_balances }

/-- The record construction of `transact`:
`record = sy.zeros(num_accounts).long(); record[frm] = -amt; record[to] = amt`.
`none` is the `IndexError` raised on an out-of-range index. -/
def record_of (num_accounts : Nat) (amt frm to_ : Int) : Option (List Int) :=
  (pySet (List.replicate num_accounts 0) frm (-amt)).bind fun r => pySet r to_ amt

/-- The validation step of `transact`:
`neg_check = 1 - (candidate_balance < 0).sum()`. -/
def neg_check (candidate_balance : List Int) : Int :=
  1 - negCount candidate_balance

/-- Python `SimpleLedger.transact(amt, frm, to)`: build the record, mask it by
`neg_check` of the candidate balance, append it and advance the cache. -/
def transact (l : SimpleLedger) (amt frm to_ : Int) : Option SimpleLedger :=
  (record_of l.num_accounts amt frm to_).map fun record =>
    let candidate_balance := vadd l.running_balance record
    let record := vscale record (neg_check candidate_balance)
    { l with
      transactions := l.transactions ++ [record]
      running_balance := vadd l.running_balance record }

end SimpleLedger

/-- One `transact` call by a caller that catches the `IndexError`: on error the
ledger is left as it was. -/
def runTx (l : SimpleLedger) (tx : Int × Int × Int) : SimpleLedger :=
  match l.transact tx.1 tx.2.1 tx.2.2 with
  | some l' => l'
  | none => l

/-- Any finite sequence of `transact` calls against a `SimpleLedger`. -/
def runAll (l : SimpleLedger) (txs : List (Int × Int × Int)) : SimpleLedger :=
  txs.foldl runTx l

/-- The `DecentralizedLedger` state (Step 3 of the notebook).  Shared tensors
are represented by their reconstructed plaintext values (see the header).
`zeros` is the cached shared zero vector `initial_balances - initial_balances`. -/
structure DecentralizedLedger where
  num_accounts : Nat
  transactions : List (List Int)
  zeros : List Int
  running_balance : List Int
  deriving Repr, DecidableEq

namespace DecentralizedLedger

/-- Python `compute_balances` of the decentralized ledger: same fold over the log. -/
def compute_balances (l : DecentralizedLedger) : List Int :=
  match l.transactions with
  | [] => []
  | b :: ts => ts.foldl vadd b

/-- Python `DecentralizedLedger.__init__(*owners, num_accounts, starting_balance)`:
the shared seed, the cached shared zero vector, and the cached running
balance.  The owners only parameterize the sharing, which is modelled by its
plaintext semantics, so they do not appear in the state. -/
def init (num_accounts : Nat) (starting_balance : Int) : DecentralizedLedger :=
  let initial_balances := List.replicate num_accounts starting_balance
  let l : DecentralizedLedger :=
    { num_accounts := num_accounts
      transactions := [initial_balances]
      zeros := List.zipWith (· - ·) initial_balances initial_balances
      running_balance := [] }
  { l with running_balance := l.compute_balances }

/-- Python `DecentralizedLedger.transact(amt, frm, to)`: same record construction,
then `neg_check = 1 - (candidate_balance < self.zeros).sum(0).expand(n)`
(a length-`n` vector holding the scalar mask in every slot), applied to the
record with an element-wise multiply. -/
def transact (l : DecentralizedLedger) (amt frm to_ : Int) :
    Option DecentralizedLedger :=
  (SimpleLedger.record_of l.num_accounts amt frm to_).map fun record =>
    let candidate_balance := vadd l.running_balance record
    let neg_check :=
      List.replicate l.num_accounts (1 - ltCount candidate_balance l.zeros)
    let record := vmul record neg_check
    { l with
      transactions := l.transactions ++ [record]
      running_balance := vadd l.running_balance record }

end DecentralizedLedger

/-- One `transact` call against a `DecentralizedLedger`, the `IndexError`
caught by the caller. -/
def runTxD (l : DecentralizedLedger) (tx : Int × Int × Int) :
    DecentralizedLedger :=
  match l.transact tx.1 tx.2.1 tx.2.2 with
  | some l' => l'
  | none => l

/-- Any finite sequence of `transact` calls against a `DecentralizedLedger`. -/
def runAllD (l : DecentralizedLedger) (txs : List (Int × Int × Int)) :
    DecentralizedLedger :=
  txs.foldl runTxD l

/-! ## Int64 tensor arithmetic

`sy.ones(n).long()` tensors hold 64-bit signed integers: every element-wise
arithmetic result is wrapped into `[-2^63, 2^63)` modulo `2^64`. -/

/-- Wrap an integer into the signed 64-bit range `[-2^63, 2^63)` mod `2^64`. -/
def wrap64 (x : Int) : Int := (x + 2 ^ 63) % 2 ^ 64 - 2 ^ 63

/-- Element-wise int64 vector addition. -/
def vadd64 (a b : List Int) : List Int :=
  List.zipWith (fun x y => wrap64 (x + y)) a b

/-- Int64 vector-by-scalar multiplication. -/
def vscale64 (a : List Int) (c : Int) : List Int := a.map (fun x => wrap64 (x * c))

/-- Valid index set of Python/torch indexing into a length-`n` tensor:
`[-n, n)`; everything else raises `IndexError`. -/
def inRange (n : Nat) (i : Int) : Prop := -(n : Int) ≤ i ∧ i < n

instance (n : Nat) (i : Int) : Decidable (inRange n i) := by
  unfold inRange; infer_instance

/-- The actual position a Python index denotes in a length-`n` tensor:
non-negative indices denote themselves, negative ones wrap to `n + i`. -/
def wrappedIdx (n : Nat) (i : Int) : Nat :=
  if 0 ≤ i then i.toNat else (i + n).toNat

/-- Python-level exceptions the ledger code can raise: `IndexError` from
out-of-range tensor indexing, and the overflow error torch raises when a
Python int outside the int64 range is stored into a `LongTensor`. -/
inductive PyErr where
  | indexError
  | overflowError
  deriving Repr, DecidableEq

/-- Equality of `Except` results is decidable when both components are,
so concrete runs of the int64 ledger can be evaluated by `decide`. -/
instance {e a : Type} [DecidableEq e] [DecidableEq a] : DecidableEq (Except e a) := fun x y =>
  match x, y with
  | .ok u, .ok v =>
      if h : u = v then isTrue (by rw [h]) else isFalse (fun hc => h (Except.ok.inj hc))
  | .ok _, .error _ => isFalse (fun hc => Except.noConfusion hc)
  | .error _, .ok _ => isFalse (fun hc => Except.noConfusion hc)
  | .error u, .error v =>
      if h : u = v then isTrue (by rw [h]) else isFalse (fun hc => h (Except.error.inj hc))

/-- Range of a 64-bit signed integer (`LongTensor` element). -/
def int64Range (v : Int) : Prop := -(2 ^ 63) ≤ v ∧ v < 2 ^ 63

instance (v : Int) : Decidable (int64Range v) := by
  unfold int64Range; infer_instance

/-- Indexed assignment `xs[i] = v` on an int64 tensor: the index is resolved
first (`IndexError` outside `[-len, len)`, Python wraparound for negatives),
then the Python int is converted to int64 — torch raises an overflow error
for a value outside the int64 range instead of wrapping it. -/
def pySetI64 (xs : List Int) (i v : Int) : Except PyErr (List Int) :=
  if inRange xs.length i then
    if int64Range v then .ok (xs.set (wrappedIdx xs.length i) v)
    else .error .overflowError
  else .error .indexError

/-- The `SimpleLedger` state over faithful int64 tensors. -/
structure Ledger64 where
  num_accounts : Nat
  transactions : List (List Int)
  running_balance : List Int
  deriving Repr, DecidableEq

namespace Ledger64

/-- Python `compute_balances` over int64 tensors: the same fold, with
wrapping addition. -/
def compute_balances (l : Ledger64) : List Int :=
  match l.transactions with
  | [] => []
  | b :: ts => ts.foldl vadd64 b

/-- Python `SimpleLedger.__init__` over int64 tensors.
`sy.ones(n).long() * starting_balance` converts the scalar into the int64
domain, written here as `wrap64` (the claims only ever instantiate it with
in-range starting balances, where `wrap64` is the identity). -/
def init (num_accounts : Nat) (starting_balance : Int) : Ledger64 :=
  let initial_balances := List.replicate num_accounts (wrap64 starting_balance)
  let l : Ledger64 :=
    { num_accounts := num_accounts
      transactions := [initial_balances]
      running_balance := [] }
  { l with running_balance := l.compute_balances }

/-- Record construction over int64 tensors:
`record = sy.zeros(n).long(); record[frm] = -amt; record[to] = amt`, where
each store checks its index and then that the stored Python int fits int64. -/
def record_of (num_accounts : Nat) (amt frm to_ : Int) : Except PyErr (List Int) :=
  (pySetI64 (List.replicate num_accounts 0) frm (-amt)).bind fun r =>
    pySetI64 r to_ amt

/-- Python `SimpleLedger.transact` over int64 tensors: build the record
(which may raise), mask it by `neg_check` of the wrapped candidate balance,
append it and advance the cache. -/
def transact (l : Ledger64) (amt frm to_ : Int) : Except PyErr Ledger64 :=
  (record_of l.num_accounts amt frm to_).map fun record =>
    let candidate_balance := vadd64 l.running_balance record
    let record := vscale64 record (SimpleLedger.neg_check candidate_balance)
    { l with
      transactions := l.transactions ++ [record]
      running_balance := vadd64 l.running_balance record }

end Ledger64

/-- One `transact` call against a `Ledger64` by a caller that catches the
exception: on error the ledger is left as it was. -/
def runTx64 (l : Ledger64) (tx : Int × Int × Int) : Ledger64 :=
  match l.transact tx.1 tx.2.1 tx.2.2 with
  | .ok l' => l'
  | .error _ => l

/-- Any finite sequence of `transact` calls against a `Ledger64`. -/
def runAll64 (l : Ledger64) (txs : List (Int × Int × Int)) : Ledger64 :=
  txs.foldl runTx64 l

/-- Total absolute amount of a sequence of transact calls: a budget bounding
how far any balance can drift from its start. -/
def amtBudget (txs : List (Int × Int × Int)) : Int :=
  (txs.map (fun tx => |tx.1|)).sum

/-- Sum of a transaction log with int64 (wrapping) addition. -/
def sumLog64 : List (List Int) → List Int
  | [] => []
  | b :: t => t.foldl vadd64 b

/-- The cache-coherence invariant of a `Ledger64`. -/
def cacheInv64 (l : Ledger64) : Prop :=
  l.transactions ≠ [] ∧ l.running_balance = l.compute_balances

instance (l : Ledger64) : Decidable (cacheInv64 l) := by
  unfold cacheInv64; infer_instance

/-- Sum of a transaction log: the balance-reconstruction fold that both
`compute_balances` methods perform. -/
def sumLog : List (List Int) → List Int
  | [] => []
  | b :: t => t.foldl vadd b

/-- The cache-coherence invariant of a `SimpleLedger`: the log is non-empty
(it always holds the seed) and the cached `running_balance` equals
`compute_balances()`. -/
def cacheInv (l : SimpleLedger) : Prop :=
  l.transactions ≠ [] ∧ l.running_balance = l.compute_balances

instance (l : SimpleLedger) : Decidable (cacheInv l) := by
  unfold cacheInv; infer_instance

/-- The cache-coherence invariant of a `DecentralizedLedger`. -/
def cacheInvD (l : DecentralizedLedger) : Prop :=
  l.transactions ≠ [] ∧ l.running_balance = l.compute_balances

instance (l : DecentralizedLedger) : Decidable (cacheInvD l) := by
  unfold cacheInvD; infer_instance

/-! ## Basic lemmas about the vector operations -/

theorem vadd_cons (x y : Int) (xs ys : List Int) :
    vadd (x :: xs) (y :: ys) = (x + y) :: vadd xs ys := rfl

theorem length_vadd (a b : List Int) :
    (vadd a b).length = min a.length b.length := by
  simp [vadd]

theorem sum_vadd (a : List Int) :
    ∀ b : List Int, a.length = b.length → (vadd a b).sum = a.sum + b.sum := by
  induction a with
  | nil =>
    intro b h
    cases b with
    | nil => simp [vadd]
    | cons y ys => simp at h
  | cons x xs ih =>
    intro b h
    cases b with
    | nil => simp at h
    | cons y ys =>
      rw [vadd_cons, List.sum_cons, List.sum_cons, List.sum_cons,
        ih ys (by simpa using h)]
      ring

theorem vscale_one (a : List Int) : vscale a 1 = a := by
  simp [vscale]

theorem vscale_zero (a : List Int) : vscale a 0 = List.replicate a.length 0 := by
  induction a with
  | nil => rfl
  | cons x xs ih => simp [vscale, List.replicate] at *

theorem length_vscale (a : List Int) (c : Int) : (vscale a c).length = a.length := by
  simp [vscale]

theorem sum_vscale (a : List Int) (c : Int) : (vscale a c).sum = a.sum * c := by
  induction a with
  | nil => simp [vscale]
  | cons x xs ih => simp [vscale] at *; rw [ih]; ring

theorem vadd_replicate_zero (a : List Int) :
    ∀ n : Nat, a.length ≤ n → vadd a (List.replicate n 0) = a := by
  induction a with
  | nil => intro n _; simp [vadd]
  | cons x xs ih =>
    intro n h
    cases n with
    | zero => simp at h
    | succ m =>
      rw [List.replicate_succ, vadd_cons, add_zero, ih m (by simpa using h)]

theorem mem_vadd_nonneg (a : List Int) :
    ∀ b : List Int, (∀ x ∈ a, 0 ≤ x) → (∀ x ∈ b, 0 ≤ x) →
      ∀ x ∈ vadd a b, 0 ≤ x := by
  induction a with
  | nil => intro b _ _ x hx; simp [vadd] at hx
  | cons z zs ih =>
    intro b ha hb x hx
    cases b with
    | nil => simp [vadd] at hx
    | cons y ys =>
      rw [vadd_cons] at hx
      rcases List.mem_cons.mp hx with h | h
      · subst h
        exact add_nonneg (ha z (by simp)) (hb y (by simp))
      · exact ih ys (fun u hu => ha u (by simp [hu])) (fun u hu => hb u (by simp [hu])) x h

/-! ## Lemmas about `negCount` and `neg_check` -/

theorem negCount_nonneg (a : List Int) : 0 ≤ negCount a := Int.ofNat_nonneg _

theorem negCount_cons (x : Int) (xs : List Int) :
    negCount (x :: xs) = (if x < 0 then 1 else 0) + negCount xs := by
  simp only [negCount, List.countP_cons]
  split <;> simp_all
  omega

theorem negCount_eq_zero_iff (a : List Int) :
    negCount a = 0 ↔ ∀ x ∈ a, 0 ≤ x := by
  simp [negCount, List.countP_eq_zero, Int.not_lt]

theorem negCount_pos_iff (a : List Int) :
    0 < negCount a ↔ ∃ x ∈ a, x < 0 := by
  simp [negCount, List.countP_pos_iff]

theorem negCount_vadd_le (a : List Int) :
    ∀ b : List Int, (∀ x ∈ a, 0 ≤ x) → negCount (vadd a b) ≤ negCount b := by
  induction a with
  | nil => intro b _; simp [vadd]; exact negCount_nonneg b
  | cons x xs ih =>
    intro b h
    cases b with
    | nil => simp [vadd]
    | cons y ys =>
      rw [vadd_cons, negCount_cons, negCount_cons]
      have hx : 0 ≤ x := h x (by simp)
      have hih := ih ys (fun u hu => h u (by simp [hu]))
      have : (if x + y < 0 then (1 : Int) else 0) ≤ if y < 0 then 1 else 0 := by
        split <;> split <;> omega
      omega

/-! ## Lemmas about Python indexing and the record construction -/

theorem pySet_eq_some_iff (xs : List Int) (i v : Int) :
    (pySet xs i v).isSome ↔ inRange xs.length i := by
  unfold pySet inRange
  split
  · simp; omega
  · split
    · simp; omega
    · simp; omega

theorem pySet_eq_set (xs : List Int) (i v : Int) (r : List Int)
    (h : pySet xs i v = some r) :
    r = xs.set (wrappedIdx xs.length i) v ∧ wrappedIdx xs.length i < xs.length := by
  unfold pySet at h
  unfold wrappedIdx
  split at h
  · rename_i hc
    refine ⟨by rw [if_pos hc.1] at *; exact (Option.some_inj.mp h).symm, ?_⟩
    rw [if_pos hc.1]
    omega
  · split at h
    · rename_i hc1 hc2
      have hneg : ¬ (0 ≤ i) := by omega
      refine ⟨by rw [if_neg hneg] at *; exact (Option.some_inj.mp h).symm, ?_⟩
      rw [if_neg hneg]
      omega
    · exact absurd h (by simp)

theorem pySet_length (xs : List Int) (i v : Int) (r : List Int)
    (h : pySet xs i v = some r) : r.length = xs.length := by
  rcases pySet_eq_set xs i v r h with ⟨rfl, _⟩
  simp

theorem pySet_neg_shift (xs : List Int) (i v : Int)
    (h0 : -(xs.length : Int) ≤ i) (h1 : i < 0) :
    pySet xs i v = pySet xs (i + xs.length) v := by
  unfold pySet
  have hA : ¬ (0 ≤ i ∧ i < (xs.length : Int)) := by omega
  rw [if_neg hA, if_pos (by omega : -(xs.length : Int) ≤ i ∧ i < 0),
    if_pos (by omega : 0 ≤ i + (xs.length : Int) ∧ i + (xs.length : Int) < (xs.length : Int))]

theorem record_of_isSome_iff (n : Nat) (amt frm to_ : Int) :
    (SimpleLedger.record_of n amt frm to_).isSome ↔ inRange n frm ∧ inRange n to_ := by
  unfold SimpleLedger.record_of
  cases h : pySet (List.replicate n 0) frm (-amt) with
  | none =>
    have h1 := pySet_eq_some_iff (List.replicate n 0) frm (-amt)
    rw [h] at h1
    simp at h1
    simp [h1]
  | some r =>
    have h1 := pySet_eq_some_iff (List.replicate n 0) frm (-amt)
    rw [h] at h1
    simp at h1
    have hlen : r.length = n := by
      have := pySet_length _ _ _ _ h
      simpa using this
    have h2 := pySet_eq_some_iff r to_ amt
    rw [hlen] at h2
    simp [h2, h1]

theorem record_of_eq (n : Nat) (amt frm to_ : Int) (r : List Int)
    (h : SimpleLedger.record_of n amt frm to_ = some r) :
    r = ((List.replicate n 0).set (wrappedIdx n frm) (-amt)).set (wrappedIdx n to_) amt
      ∧ wrappedIdx n frm < n ∧ wrappedIdx n to_ < n := by
  unfold SimpleLedger.record_of at h
  cases h1 : pySet (List.replicate n 0) frm (-amt) with
  | none => rw [h1] at h; simp at h
  | some r1 =>
    rw [h1] at h
    simp only [Option.some_bind] at h
    have e1 := pySet_eq_set _ _ _ _ h1
    have e2 := pySet_eq_set _ _ _ _ h
    have hlen : r1.length = n := by
      have := pySet_length _ _ _ _ h1
      simpa using this
    rw [hlen] at e2
    rw [List.length_replicate] at e1
    exact ⟨by rw [e2.1, e1.1], e1.2, e2.2⟩

theorem record_of_length (n : Nat) (amt frm to_ : Int) (r : List Int)
    (h : SimpleLedger.record_of n amt frm to_ = some r) : r.length = n := by
  rcases record_of_eq n amt frm to_ r h with ⟨rfl, _, _⟩
  simp

/-! ## Bounds on the number of negative entries of a record -/

theorem countP_set_le (p : Int → Bool) (l : List Int) :
    ∀ (i : Nat) (x : Int), (l.set i x).countP p ≤ l.countP p + 1 := by
  induction l with
  | nil => intro i x; simp
  | cons a as ih =>
    intro i x
    cases i with
    | zero => simp [List.countP_cons]; split <;> split <;> omega
    | succ j =>
      simp only [List.set, List.countP_cons]
      have := ih j x
      omega

theorem countP_set_of_not (p : Int → Bool) (l : List Int) :
    ∀ (i : Nat) (x : Int), p x = false → (l.set i x).countP p ≤ l.countP p := by
  induction l with
  | nil => intro i x _; simp
  | cons a as ih =>
    intro i x hx
    cases i with
    | zero => simp [List.countP_cons, hx]
    | succ j =>
      simp only [List.set, List.countP_cons]
      have := ih j x hx
      omega

theorem negCount_record_le_one (n : Nat) (amt frm to_ : Int) (r : List Int)
    (h : SimpleLedger.record_of n amt frm to_ = some r) : negCount r ≤ 1 := by
  rcases record_of_eq n amt frm to_ r h with ⟨rfl, _, _⟩
  have hz : (List.replicate n (0 : Int)).countP (fun x => decide (x < 0)) = 0 := by
    rw [List.countP_eq_zero]
    intro a ha
    simp [List.eq_of_mem_replicate ha]
  unfold negCount
  rcases lt_trichotomy amt 0 with hneg | hzero | hpos
  · have h1 := countP_set_of_not (fun x => decide (x < 0))
      (List.replicate n 0) (wrappedIdx n frm) (-amt) (by simp; omega)
    have h2 := countP_set_le (fun x => decide (x < 0))
      ((List.replicate n 0).set (wrappedIdx n frm) (-amt)) (wrappedIdx n to_) amt
    omega
  · subst hzero
    have h1 := countP_set_of_not (fun x => decide (x < 0))
      (List.replicate n 0) (wrappedIdx n frm) (-0) (by simp)
    have h2 := countP_set_of_not (fun x => decide (x < 0))
      ((List.replicate n 0).set (wrappedIdx n frm) (-0)) (wrappedIdx n to_) 0 (by simp)
    omega
  · have h1 := countP_set_le (fun x => decide (x < 0))
      (List.replicate n 0) (wrappedIdx n frm) (-amt)
    have h2 := countP_set_of_not (fun x => decide (x < 0))
      ((List.replicate n 0).set (wrappedIdx n frm) (-amt)) (wrappedIdx n to_) amt
      (by simp; omega)
    omega

/-! ## Shape lemmas about `transact` -/

theorem transact_of_record (l : SimpleLedger) (amt frm to_ : Int) (r : List Int)
    (h : SimpleLedger.record_of l.num_accounts amt frm to_ = some r) :
    l.transact amt frm to_ = some
      { l with
        transactions :=
          l.transactions ++ [vscale r (SimpleLedger.neg_check (vadd l.running_balance r))]
        running_balance :=
          vadd l.running_balance
            (vscale r (SimpleLedger.neg_check (vadd l.running_balance r))) } := by
  unfold SimpleLedger.transact
  rw [h]
  rfl

theorem transact_eq_some (l l' : SimpleLedger) (amt frm to_ : Int)
    (h : l.transact amt frm to_ = some l') :
    ∃ rec : List Int,
      l'.transactions = l.transactions ++ [rec]
        ∧ l'.running_balance = vadd l.running_balance rec
        ∧ l'.num_accounts = l.num_accounts := by
  unfold SimpleLedger.transact at h
  cases hrec : SimpleLedger.record_of l.num_accounts amt frm to_ with
  | none => rw [hrec] at h; simp at h
  | some r =>
    rw [hrec] at h
    simp only [Option.map_some', Option.some_inj] at h
    exact ⟨vscale r (SimpleLedger.neg_check (vadd l.running_balance r)),
      by rw [← h], by rw [← h], by rw [← h]⟩

theorem transact_isSome_iff (l : SimpleLedger) (amt frm to_ : Int) :
    (l.transact amt frm to_).isSome
      ↔ inRange l.num_accounts frm ∧ inRange l.num_accounts to_ := by
  rw [← record_of_isSome_iff l.num_accounts amt frm to_]
  unfold SimpleLedger.transact
  cases SimpleLedger.record_of l.num_accounts amt frm to_ <;> simp

theorem transact_accept (l : SimpleLedger) (amt frm to_ : Int) (r : List Int)
    (hrec : SimpleLedger.record_of l.num_accounts amt frm to_ = some r)
    (hok : ∀ x ∈ vadd l.running_balance r, 0 ≤ x) :
    l.transact amt frm to_ = some
      { l with
        transactions := l.transactions ++ [r]
        running_balance := vadd l.running_balance r } := by
  have hmask : SimpleLedger.neg_check (vadd l.running_balance r) = 1 := by
    unfold SimpleLedger.neg_check
    rw [(negCount_eq_zero_iff (vadd l.running_balance r)).mpr hok]
    decide
  rw [transact_of_record l amt frm to_ r hrec, hmask, vscale_one]

theorem transact_reject (l : SimpleLedger) (amt frm to_ : Int) (r : List Int)
    (hrec : SimpleLedger.record_of l.num_accounts amt frm to_ = some r)
    (hlen : l.running_balance.length ≤ r.length)
    (hone : negCount (vadd l.running_balance r) = 1) :
    l.transact amt frm to_ = some
      { l with
        transactions := l.transactions ++ [List.replicate r.length 0]
        running_balance := l.running_balance } := by
  have hmask : SimpleLedger.neg_check (vadd l.running_balance r) = 0 := by
    unfold SimpleLedger.neg_check
    omega
  rw [transact_of_record l amt frm to_ r hrec, hmask, vscale_zero,
    vadd_replicate_zero l.running_balance r.length hlen]

/-! ## The fold of a transaction log, and cache coherence -/

theorem compute_balances_eq_sumLog (l : SimpleLedger) :
    l.compute_balances = sumLog l.transactions := rfl

theorem compute_balancesD_eq_sumLog (l : DecentralizedLedger) :
    l.compute_balances = sumLog l.transactions := rfl

theorem sumLog_concat (ts : List (List Int)) (r : List Int) (h : ts ≠ []) :
    sumLog (ts ++ [r]) = vadd (sumLog ts) r := by
  cases ts with
  | nil => exact absurd rfl h
  | cons b t =>
    show sumLog (b :: (t ++ [r])) = vadd (sumLog (b :: t)) r
    simp only [sumLog]
    rw [List.foldl_append]
    rfl

theorem cacheInv_init (n : Nat) (start : Int) : cacheInv (SimpleLedger.init n start) := by
  constructor <;> simp [SimpleLedger.init, SimpleLedger.compute_balances]

theorem cacheInv_transact (l l' : SimpleLedger) (amt frm to_ : Int)
    (hinv : cacheInv l) (h : l.transact amt frm to_ = some l') : cacheInv l' := by
  rcases transact_eq_some l l' amt frm to_ h with ⟨rec, ht, hr, _⟩
  constructor
  · rw [ht]; simp
  · rw [hr, compute_balances_eq_sumLog, ht, sumLog_concat _ _ hinv.1,
      ← compute_balances_eq_sumLog, hinv.2]

theorem cacheInv_runTx (l : SimpleLedger) (tx : Int × Int × Int)
    (hinv : cacheInv l) : cacheInv (runTx l tx) := by
  unfold runTx
  cases h : l.transact tx.1 tx.2.1 tx.2.2 with
  | none => exact hinv
  | some l' => exact cacheInv_transact l l' _ _ _ hinv h

theorem cacheInv_runAll (txs : List (Int × Int × Int)) :
    ∀ l : SimpleLedger, cacheInv l → cacheInv (runAll l txs) := by
  induction txs with
  | nil => intro l h; exact h
  | cons tx rest ih =>
    intro l h
    exact ih (runTx l tx) (cacheInv_runTx l tx h)

theorem transactD_eq_some (l l' : DecentralizedLedger) (amt frm to_ : Int)
    (h : l.transact amt frm to_ = some l') :
    ∃ rec : List Int,
      l'.transactions = l.transactions ++ [rec]
        ∧ l'.running_balance = vadd l.running_balance rec := by
  unfold DecentralizedLedger.transact at h
  cases hrec : SimpleLedger.record_of l.num_accounts amt frm to_ with
  | none => rw [hrec] at h; simp at h
  | some r =>
    rw [hrec] at h
    simp only [Option.map_some', Option.some_inj] at h
    refine ⟨_, by rw [← h], by rw [← h]⟩

theorem cacheInvD_init (n : Nat) (start : Int) :
    cacheInvD (DecentralizedLedger.init n start) := by
  constructor <;> simp [DecentralizedLedger.init, DecentralizedLedger.compute_balances]

theorem cacheInvD_transact (l l' : DecentralizedLedger) (amt frm to_ : Int)
    (hinv : cacheInvD l) (h : l.transact amt frm to_ = some l') : cacheInvD l' := by
  rcases transactD_eq_some l l' amt frm to_ h with ⟨rec, ht, hr⟩
  constructor
  · rw [ht]; simp
  · rw [hr, compute_balancesD_eq_sumLog, ht, sumLog_concat _ _ hinv.1,
      ← compute_balancesD_eq_sumLog, hinv.2]

theorem cacheInvD_runAll (txs : List (Int × Int × Int)) :
    ∀ l : DecentralizedLedger, cacheInvD l → cacheInvD (runAllD l txs) := by
  induction txs with
  | nil => intro l h; exact h
  | cons tx rest ih =>
    intro l h
    refine ih (runTxD l tx) ?_
    unfold runTxD
    cases htx : l.transact tx.1 tx.2.1 tx.2.2 with
    | none => exact h
    | some l' => exact cacheInvD_transact l l' _ _ _ h htx

/-! ## Length and non-negativity preservation -/

theorem transact_cases (l l' : SimpleLedger) (amt frm to_ : Int)
    (h : l.transact amt frm to_ = some l') :
    ∃ r : List Int,
      SimpleLedger.record_of l.num_accounts amt frm to_ = some r
        ∧ r.length = l.num_accounts
        ∧ l' =
          { l with
            transactions :=
              l.transactions ++
                [vscale r (SimpleLedger.neg_check (vadd l.running_balance r))]
            running_balance :=
              vadd l.running_balance
                (vscale r (SimpleLedger.neg_check (vadd l.running_balance r))) } := by
  cases hrec : SimpleLedger.record_of l.num_accounts amt frm to_ with
  | none => unfold SimpleLedger.transact at h; rw [hrec] at h; simp at h
  | some r =>
    rw [transact_of_record l amt frm to_ r hrec] at h
    exact ⟨r, rfl, record_of_length _ _ _ _ _ hrec, (Option.some_inj.mp h).symm⟩

theorem transact_nonneg (l l' : SimpleLedger) (amt frm to_ : Int)
    (hlen : l.running_balance.length = l.num_accounts)
    (hpos : ∀ x ∈ l.running_balance, 0 ≤ x)
    (h : l.transact amt frm to_ = some l') :
    (∀ x ∈ l'.running_balance, 0 ≤ x)
      ∧ l'.running_balance.length = l'.num_accounts
      ∧ l'.num_accounts = l.num_accounts := by
  rcases transact_cases l l' amt frm to_ h with ⟨r, hrec, hrlen, rfl⟩
  have h0 := negCount_nonneg (vadd l.running_balance r)
  have h1 := negCount_vadd_le l.running_balance r hpos
  have h2 := negCount_record_le_one _ _ _ _ _ hrec
  have hK : negCount (vadd l.running_balance r) = 0
      ∨ negCount (vadd l.running_balance r) = 1 := by omega
  rcases hK with hK | hK
  · have hmask : SimpleLedger.neg_check (vadd l.running_balance r) = 1 := by
      unfold SimpleLedger.neg_check; omega
    have hok := (negCount_eq_zero_iff (vadd l.running_balance r)).mp hK
    simp only [hmask, vscale_one]
    refine ⟨hok, ?_, by trivial⟩
    simp only [length_vadd, hlen, hrlen]
    omega
  · have hmask : SimpleLedger.neg_check (vadd l.running_balance r) = 0 := by
      unfold SimpleLedger.neg_check; omega
    simp only [hmask, vscale_zero,
      vadd_replicate_zero l.running_balance r.length (by omega)]
    exact ⟨hpos, hlen, by trivial⟩

theorem runAll_nonneg (txs : List (Int × Int × Int)) :
    ∀ l : SimpleLedger,
      l.running_balance.length = l.num_accounts →
      (∀ x ∈ l.running_balance, 0 ≤ x) →
      (∀ x ∈ (runAll l txs).running_balance, 0 ≤ x)
        ∧ (runAll l txs).running_balance.length = (runAll l txs).num_accounts := by
  induction txs with
  | nil => intro l h1 h2; exact ⟨h2, h1⟩
  | cons tx rest ih =>
    intro l h1 h2
    cases htx : l.transact tx.1 tx.2.1 tx.2.2 with
    | none =>
      have : runAll l (tx :: rest) = runAll l rest := by
        show runAll (runTx l tx) rest = runAll l rest
        unfold runTx
        rw [htx]
      rw [this]
      exact ih l h1 h2
    | some l' =>
      have hrt : runTx l tx = l' := by unfold runTx; rw [htx]
      have hnn := transact_nonneg l l' tx.1 tx.2.1 tx.2.2 h1 h2 htx
      show (∀ x ∈ (runAll (runTx l tx) rest).running_balance, 0 ≤ x)
        ∧ (runAll (runTx l tx) rest).running_balance.length
            = (runAll (runTx l tx) rest).num_accounts
      rw [hrt]
      exact ih l' hnn.2.1 hnn.1

/-! ## Sums of records and conservation of total funds -/

theorem sum_set_lt (l : List Int) (i : Nat) (x : Int) (h : i < l.length) :
    (l.set i x).sum = l.sum - l[i] + x := by
  induction l generalizing i with
  | nil => simp at h
  | cons a as ih =>
    cases i with
    | zero =>
      rw [List.set_cons_zero]
      simp only [List.sum_cons, List.getElem_cons_zero]
      ring
    | succ j =>
      have hj : j < as.length := by simpa using h
      rw [List.set_cons_succ, List.sum_cons, List.sum_cons, ih j hj,
        List.getElem_cons_succ]
      ring

theorem sum_record_of (n : Nat) (amt frm to_ : Int) (r : List Int)
    (h : SimpleLedger.record_of n amt frm to_ = some r)
    (hne : wrappedIdx n frm ≠ wrappedIdx n to_) : r.sum = 0 := by
  rcases record_of_eq n amt frm to_ r h with ⟨rfl, hf, ht⟩
  have hj : wrappedIdx n to_ <
      ((List.replicate n (0 : Int)).set (wrappedIdx n frm) (-amt)).length := by
    simpa using ht
  have hi : wrappedIdx n frm < (List.replicate n (0 : Int)).length := by
    simpa using hf
  rw [sum_set_lt _ _ amt hj, List.getElem_set_ne (fun e => hne e),
    sum_set_lt _ _ (-amt) hi, List.getElem_replicate, List.sum_replicate]
  simp

theorem transact_sum (l l' : SimpleLedger) (amt frm to_ : Int)
    (hlen : l.running_balance.length = l.num_accounts)
    (hne : wrappedIdx l.num_accounts frm ≠ wrappedIdx l.num_accounts to_)
    (h : l.transact amt frm to_ = some l') :
    l'.running_balance.sum = l.running_balance.sum
      ∧ l'.running_balance.length = l'.num_accounts
      ∧ l'.num_accounts = l.num_accounts := by
  rcases transact_cases l l' amt frm to_ h with ⟨r, hrec, hrlen, rfl⟩
  have hsum : r.sum = 0 := sum_record_of _ _ _ _ _ hrec hne
  have hslen : (vscale r (SimpleLedger.neg_check (vadd l.running_balance r))).length
      = l.running_balance.length := by
    rw [length_vscale, hrlen, hlen]
  refine ⟨?_, ?_, by trivial⟩
  · rw [sum_vadd _ _ hslen.symm, sum_vscale, hsum]
    ring
  · simp only [length_vadd, hslen]
    omega

theorem runAll_sum (txs : List (Int × Int × Int)) :
    ∀ l : SimpleLedger,
      l.running_balance.length = l.num_accounts →
      (∀ tx ∈ txs,
        wrappedIdx l.num_accounts tx.2.1 ≠ wrappedIdx l.num_accounts tx.2.2) →
      (runAll l txs).running_balance.sum = l.running_balance.sum
        ∧ (runAll l txs).running_balance.length = (runAll l txs).num_accounts := by
  induction txs with
  | nil => intro l h1 _; exact ⟨rfl, h1⟩
  | cons tx rest ih =>
    intro l h1 h2
    show (runAll (runTx l tx) rest).running_balance.sum = l.running_balance.sum
      ∧ (runAll (runTx l tx) rest).running_balance.length
          = (runAll (runTx l tx) rest).num_accounts
    cases htx : l.transact tx.1 tx.2.1 tx.2.2 with
    | none =>
      have hid : runTx l tx = l := by unfold runTx; rw [htx]
      rw [hid]
      exact ih l h1 (fun u hu => h2 u (by simp [hu]))
    | some l' =>
      have hrt : runTx l tx = l' := by unfold runTx; rw [htx]
      have hs := transact_sum l l' tx.1 tx.2.1 tx.2.2 h1
        (h2 tx (by simp)) htx
      rw [hrt]
      have hrest := ih l' hs.2.1 (by rw [hs.2.2]; exact fun u hu => h2 u (by simp [hu]))
      exact ⟨by rw [hrest.1, hs.1], hrest.2⟩

/-! ## Self-transfers and int64 wrapping -/

theorem record_of_self (n : Nat) (amt i : Int) (h0 : 0 ≤ i) (h1 : i < (n : Int)) :
    SimpleLedger.record_of n amt i i
      = some ((List.replicate n 0).set i.toNat amt) := by
  unfold SimpleLedger.record_of pySet
  simp only [List.length_replicate, List.length_set]
  rw [if_pos ⟨h0, h1⟩]
  simp only [Option.some_bind, List.length_set, List.length_replicate]
  rw [if_pos ⟨h0, h1⟩, List.set_set]

theorem mem_set_replicate (n k : Nat) (v x : Int)
    (h : x ∈ (List.replicate n (0 : Int)).set k v) : x = 0 ∨ x = v := by
  rcases List.mem_or_eq_of_mem_set h with h | h
  · exact Or.inl (List.eq_of_mem_replicate h)
  · exact Or.inr h

theorem wrap64_eq_self (x : Int) (h0 : -(2 ^ 63) ≤ x) (h1 : x < 2 ^ 63) :
    wrap64 x = x := by
  unfold wrap64
  rw [Int.emod_eq_of_lt (by omega) (by omega)]
  ring

theorem wrap64_pow63 : wrap64 (2 ^ 63) = -(2 ^ 63) := by decide

/-! ## Projections of freshly constructed ledgers -/

theorem init_num_accounts (n : Nat) (start : Int) :
    (SimpleLedger.init n start).num_accounts = n := rfl

theorem init_transactions (n : Nat) (start : Int) :
    (SimpleLedger.init n start).transactions = [List.replicate n start] := rfl

theorem init_running_balance (n : Nat) (start : Int) :
    (SimpleLedger.init n start).running_balance = List.replicate n start := rfl

/-! ## The claims -/

/-- C1: for every ledger, with or without secret sharing, and after every
sequence of `transact` calls, the cached `running_balance` field equals
`compute_balances()`, the element-wise sum of all entries of the transactions
log starting from the seeded initial balance vector. -/
theorem claim1_cache_coherence (n : Nat) (start : Int)
    (txs : List (Int × Int × Int)) :
    (runAll (SimpleLedger.init n start) txs).running_balance
        = (runAll (SimpleLedger.init n start) txs).compute_balances
      ∧ (runAllD (DecentralizedLedger.init n start) txs).running_balance
        = (runAllD (DecentralizedLedger.init n start) txs).compute_balances :=
  ⟨(cacheInv_runAll txs _ (cacheInv_init n start)).2,
   (cacheInvD_runAll txs _ (cacheInvD_init n start)).2⟩

/-- C2 as stated is false: the validation step is
`neg_check = 1 - (candidate_balance < 0).sum()`, so with a running balance of
`[-1, -1]` (a ledger created with starting balance `-1`) and the zero record
built by `transact(0, 0, 1)`, the candidate balance has two negative entries
and the mask is `-1`, which is neither `0` nor `1`. -/
theorem claim2_counterexample :
    SimpleLedger.record_of 2 0 0 1 = some [0, 0]
      ∧ (SimpleLedger.init 2 (-1)).running_balance = [-1, -1]
      ∧ SimpleLedger.neg_check
          (vadd (SimpleLedger.init 2 (-1)).running_balance [0, 0]) = -1
      ∧ (-1 : Int) ≠ 0 ∧ (-1 : Int) ≠ 1 := by decide

/-- C2 amended: for every running balance and record, the mask computed by
the validation step equals `1 - k` where `k` is the number of negative
entries of `running_balance + record`; it equals `1` iff every entry is
`≥ 0`, and it lies in `{0, 1}` only under the additional assumption that at
most one entry of the candidate balance is negative. -/
theorem claim2_mask_characterization (rb r : List Int) :
    SimpleLedger.neg_check (vadd rb r) = 1 - negCount (vadd rb r)
      ∧ (SimpleLedger.neg_check (vadd rb r) = 1 ↔ ∀ x ∈ vadd rb r, 0 ≤ x)
      ∧ (negCount (vadd rb r) ≤ 1 →
          SimpleLedger.neg_check (vadd rb r) = 0
            ∨ SimpleLedger.neg_check (vadd rb r) = 1) := by
  have h0 := negCount_nonneg (vadd rb r)
  refine ⟨rfl, ?_, fun h => by unfold SimpleLedger.neg_check; omega⟩
  unfold SimpleLedger.neg_check
  constructor
  · intro h
    exact (negCount_eq_zero_iff _).mp (by omega)
  · intro h
    rw [(negCount_eq_zero_iff _).mpr h]
    decide

theorem claim2_mask_characterization_is_satisfiable :
    SimpleLedger.neg_check (vadd [3, 4] [-1, 1]) = 0
      ∨ SimpleLedger.neg_check (vadd [3, 4] [-1, 1]) = 1 :=
  (claim2_mask_characterization [3, 4] [-1, 1]).2.2 (by decide)

/-- C9: the concrete scenario with ten accounts starting at 100:
`transact(5,0,1)` moves 5 from account 0 to account 1, the following
`transact(100,0,1)` is rejected (account 0 only holds 95) leaving balances
unchanged, and `transact(95,0,1)` then empties account 0. -/
theorem claim9_scenario :
    ((SimpleLedger.init 10 100).transact 5 0 1).map SimpleLedger.compute_balances
        = some [95, 105, 100, 100, 100, 100, 100, 100, 100, 100]
      ∧ (((SimpleLedger.init 10 100).transact 5 0 1).bind
            (fun l => l.transact 100 0 1)).map SimpleLedger.compute_balances
        = some [95, 105, 100, 100, 100, 100, 100, 100, 100, 100]
      ∧ ((((SimpleLedger.init 10 100).transact 5 0 1).bind
            (fun l => l.transact 100 0 1)).bind
            (fun l => l.transact 95 0 1)).map SimpleLedger.compute_balances
        = some [0, 200, 100, 100, 100, 100, 100, 100, 100, 100] := by
  decide
/-! ## Lemmas about the int64 store and record construction -/

theorem wrappedIdx_lt_of_inRange (n : Nat) (i : Int) (h : inRange n i) :
    wrappedIdx n i < n := by
  unfold inRange at h
  unfold wrappedIdx
  split <;> omega

theorem wrappedIdx_shift (n : Nat) (i : Int) (h0 : -(n : Int) ≤ i) (h1 : i < 0) :
    wrappedIdx n i = wrappedIdx n (i + n) := by
  unfold wrappedIdx
  rw [if_neg (by omega), if_pos (by omega)]

theorem inRange_shift (n : Nat) (i : Int) (h0 : -(n : Int) ≤ i) (h1 : i < 0) :
    inRange n i ∧ inRange n (i + n) := by
  unfold inRange
  omega

theorem pySet_of_inRange (xs : List Int) (i v : Int) (h : inRange xs.length i) :
    pySet xs i v = some (xs.set (wrappedIdx xs.length i) v) := by
  unfold inRange at h
  unfold pySet wrappedIdx
  by_cases h0 : 0 ≤ i
  · rw [if_pos ⟨h0, h.2⟩, if_pos h0]
  · rw [if_neg (by omega), if_pos ⟨h.1, by omega⟩, if_neg h0]

theorem pySetI64_of_ok (xs : List Int) (i v : Int) (h : inRange xs.length i)
    (hv : int64Range v) :
    pySetI64 xs i v = .ok (xs.set (wrappedIdx xs.length i) v) := by
  unfold pySetI64
  rw [if_pos h, if_pos hv]

theorem pySetI64_eq_ok (xs : List Int) (i v : Int) (r : List Int)
    (h : pySetI64 xs i v = .ok r) :
    r = xs.set (wrappedIdx xs.length i) v ∧ inRange xs.length i ∧ int64Range v := by
  unfold pySetI64 at h
  split at h
  · split at h
    · exact ⟨(Except.ok.inj h).symm, by assumption, by assumption⟩
    · exact absurd h (by simp)
  · exact absurd h (by simp)

theorem pySetI64_length (xs : List Int) (i v : Int) (r : List Int)
    (h : pySetI64 xs i v = .ok r) : r.length = xs.length := by
  rcases pySetI64_eq_ok xs i v r h with ⟨rfl, _, _⟩
  simp

theorem pySetI64_indexError (xs : List Int) (i v : Int) :
    pySetI64 xs i v = .error .indexError ↔ ¬ inRange xs.length i := by
  unfold pySetI64
  split
  · split <;> simp_all
  · simp_all

theorem pySetI64_overflow (xs : List Int) (i v : Int) (h : inRange xs.length i) :
    pySetI64 xs i v = .error .overflowError ↔ ¬ int64Range v := by
  unfold pySetI64
  rw [if_pos h]
  split <;> simp_all

theorem pySetI64_shift (xs : List Int) (i v : Int)
    (h0 : -(xs.length : Int) ≤ i) (h1 : i < 0) :
    pySetI64 xs i v = pySetI64 xs (i + xs.length) v := by
  unfold pySetI64
  rcases inRange_shift xs.length i h0 h1 with ⟨hA, hB⟩
  rw [if_pos hA, if_pos hB, wrappedIdx_shift xs.length i h0 h1]

theorem record_of64_eq_ok (n : Nat) (amt frm to_ : Int) (r : List Int)
    (h : Ledger64.record_of n amt frm to_ = .ok r) :
    r = ((List.replicate n 0).set (wrappedIdx n frm) (-amt)).set (wrappedIdx n to_) amt
      ∧ inRange n frm ∧ inRange n to_ ∧ int64Range (-amt) ∧ int64Range amt := by
  unfold Ledger64.record_of at h
  cases h1 : pySetI64 (List.replicate n 0) frm (-amt) with
  | error e => rw [h1] at h; exact Except.noConfusion h
  | ok r1 =>
    rw [h1] at h
    have h2 : pySetI64 r1 to_ amt = .ok r := h
    have e1 := pySetI64_eq_ok _ _ _ _ h1
    simp only [List.length_replicate] at e1
    have hlen : r1.length = n := by simpa using pySetI64_length _ _ _ _ h1
    have e2 := pySetI64_eq_ok _ _ _ _ h2
    rw [hlen] at e2
    exact ⟨by rw [e2.1, e1.1], e1.2.1, e2.2.1, e1.2.2, e2.2.2⟩

theorem record_of64_length (n : Nat) (amt frm to_ : Int) (r : List Int)
    (h : Ledger64.record_of n amt frm to_ = .ok r) : r.length = n := by
  rcases record_of64_eq_ok n amt frm to_ r h with ⟨rfl, _, _, _, _⟩
  simp

theorem record_of64_ok (n : Nat) (amt frm to_ : Int)
    (h1 : inRange n frm) (h2 : inRange n to_)
    (h3 : int64Range (-amt)) (h4 : int64Range amt) :
    Ledger64.record_of n amt frm to_
      = .ok (((List.replicate n 0).set (wrappedIdx n frm) (-amt)).set (wrappedIdx n to_) amt) := by
  unfold Ledger64.record_of
  rw [pySetI64_of_ok _ _ _ (by simpa using h1) h3]
  show pySetI64 _ to_ amt = _
  rw [pySetI64_of_ok _ _ _ (by simpa using h2) h4]
  simp

theorem record_of64_bridge (n : Nat) (amt frm to_ : Int) (r : List Int)
    (h : Ledger64.record_of n amt frm to_ = .ok r) :
    SimpleLedger.record_of n amt frm to_ = some r := by
  rcases record_of64_eq_ok n amt frm to_ r h with ⟨rfl, h1, h2, _, _⟩
  unfold SimpleLedger.record_of
  rw [pySet_of_inRange _ _ _ (by simpa using h1)]
  simp only [Option.some_bind]
  rw [pySet_of_inRange _ _ _ (by simpa using h2)]
  simp

/-! ## Lemmas about int64 vector arithmetic -/

theorem vadd64_cons (x y : Int) (xs ys : List Int) :
    vadd64 (x :: xs) (y :: ys) = wrap64 (x + y) :: vadd64 xs ys := rfl

theorem length_vadd64 (a b : List Int) :
    (vadd64 a b).length = min a.length b.length := by
  simp [vadd64]

theorem wrap64_zero : wrap64 0 = 0 := by decide

theorem vadd64_eq_vadd (a : List Int) :
    ∀ b : List Int, (∀ p ∈ List.zip a b, int64Range (p.1 + p.2)) →
      vadd64 a b = vadd a b := by
  induction a with
  | nil => intro b _; rfl
  | cons x xs ih =>
    intro b h
    cases b with
    | nil => rfl
    | cons y ys =>
      have hxy := h (x, y) (by simp)
      rw [vadd64_cons, vadd_cons, wrap64_eq_self _ hxy.1 hxy.2,
        ih ys (fun p hp => h p (by simp [hp]))]

theorem vscale64_one (a : List Int) (h : ∀ x ∈ a, int64Range x) :
    vscale64 a 1 = a := by
  induction a with
  | nil => rfl
  | cons x xs ih =>
    show wrap64 (x * 1) :: vscale64 xs 1 = x :: xs
    rw [mul_one, wrap64_eq_self x (h x (by simp)).1 (h x (by simp)).2,
      ih (fun u hu => h u (by simp [hu]))]

theorem vscale64_zero (a : List Int) :
    vscale64 a 0 = List.replicate a.length 0 := by
  induction a with
  | nil => rfl
  | cons x xs ih =>
    show wrap64 (x * 0) :: vscale64 xs 0 = _
    rw [mul_zero, wrap64_zero, ih, List.length_cons, List.replicate_succ]

theorem length_vscale64 (a : List Int) (c : Int) :
    (vscale64 a c).length = a.length := by
  simp [vscale64]

theorem vadd64_replicate_zero (a : List Int) (h : ∀ x ∈ a, int64Range x) :
    ∀ n : Nat, a.length ≤ n → vadd64 a (List.replicate n 0) = a := by
  induction a with
  | nil => intro n _; rfl
  | cons x xs ih =>
    intro n hn
    cases n with
    | zero => simp at hn
    | succ m =>
      rw [List.replicate_succ, vadd64_cons, add_zero,
        wrap64_eq_self x (h x (by simp)).1 (h x (by simp)).2,
        ih (fun u hu => h u (by simp [hu])) m (by simpa using hn)]

theorem mem_setset (n f t : Nat) (a b x : Int)
    (h : x ∈ ((List.replicate n (0 : Int)).set f a).set t b) :
    x = 0 ∨ x = a ∨ x = b := by
  rcases List.mem_or_eq_of_mem_set h with h | h
  · rcases List.mem_or_eq_of_mem_set h with h | h
    · exact Or.inl (List.eq_of_mem_replicate h)
    · exact Or.inr (Or.inl h)
  · exact Or.inr (Or.inr h)

theorem abs_mem_record64_le (n : Nat) (amt frm to_ : Int) (r : List Int)
    (h : Ledger64.record_of n amt frm to_ = .ok r) :
    ∀ y ∈ r, |y| ≤ |amt| := by
  rcases record_of64_eq_ok n amt frm to_ r h with ⟨rfl, _, _, _, _⟩
  intro y hy
  rcases mem_setset _ _ _ _ _ _ hy with rfl | rfl | rfl
  · simp [abs_nonneg]
  · rw [abs_neg]
  · exact le_refl _

theorem mem_record64_int64Range (n : Nat) (amt frm to_ : Int) (r : List Int)
    (h : Ledger64.record_of n amt frm to_ = .ok r) :
    ∀ y ∈ r, int64Range y := by
  rcases record_of64_eq_ok n amt frm to_ r h with ⟨hr, _, _, h3, h4⟩
  subst hr
  intro y hy
  rcases mem_setset _ _ _ _ _ _ hy with rfl | rfl | rfl
  · exact ⟨by norm_num, by norm_num⟩
  · exact h3
  · exact h4

theorem record64_sum (n : Nat) (amt frm to_ : Int) (r : List Int)
    (h : Ledger64.record_of n amt frm to_ = .ok r) :
    r.sum = 0 ∨ r.sum = amt := by
  by_cases hne : wrappedIdx n frm = wrappedIdx n to_
  · rcases record_of64_eq_ok n amt frm to_ r h with ⟨rfl, _, h2, _, _⟩
    rw [hne, List.set_set]
    right
    have hlt := wrappedIdx_lt_of_inRange n to_ h2
    rw [sum_set_lt _ _ _ (by simpa using hlt), List.getElem_replicate,
      List.sum_replicate]
    simp
  · exact Or.inl (sum_record_of n amt frm to_ r (record_of64_bridge _ _ _ _ _ h) hne)

/-! ## Shape lemmas about the int64 `transact` and its cache -/

theorem transact64_of_record (l : Ledger64) (amt frm to_ : Int) (r : List Int)
    (hrec : Ledger64.record_of l.num_accounts amt frm to_ = .ok r) :
    l.transact amt frm to_ = .ok
      { l with
        transactions :=
          l.transactions ++
            [vscale64 r (SimpleLedger.neg_check (vadd64 l.running_balance r))]
        running_balance :=
          vadd64 l.running_balance
            (vscale64 r (SimpleLedger.neg_check (vadd64 l.running_balance r))) } := by
  unfold Ledger64.transact
  rw [hrec]
  rfl

theorem transact64_cases (l l' : Ledger64) (amt frm to_ : Int)
    (h : l.transact amt frm to_ = .ok l') :
    ∃ r : List Int,
      Ledger64.record_of l.num_accounts amt frm to_ = .ok r
        ∧ r.length = l.num_accounts
        ∧ l' =
          { l with
            transactions :=
              l.transactions ++
                [vscale64 r (SimpleLedger.neg_check (vadd64 l.running_balance r))]
            running_balance :=
              vadd64 l.running_balance
                (vscale64 r (SimpleLedger.neg_check (vadd64 l.running_balance r))) } := by
  cases hrec : Ledger64.record_of l.num_accounts amt frm to_ with
  | error e =>
    unfold Ledger64.transact at h
    rw [hrec] at h
    exact Except.noConfusion h
  | ok r =>
    rw [transact64_of_record l amt frm to_ r hrec] at h
    exact ⟨r, rfl, record_of64_length _ _ _ _ _ hrec, (Except.ok.inj h).symm⟩

theorem transact64_eq_ok (l l' : Ledger64) (amt frm to_ : Int)
    (h : l.transact amt frm to_ = .ok l') :
    ∃ rec : List Int,
      l'.transactions = l.transactions ++ [rec]
        ∧ l'.running_balance = vadd64 l.running_balance rec
        ∧ l'.num_accounts = l.num_accounts := by
  rcases transact64_cases l l' amt frm to_ h with ⟨r, hrec, hlen, rfl⟩
  exact ⟨_, rfl, rfl, rfl⟩

theorem transact64_error_iff (l : Ledger64) (amt frm to_ : Int) (e : PyErr) :
    l.transact amt frm to_ = .error e
      ↔ Ledger64.record_of l.num_accounts amt frm to_ = .error e := by
  unfold Ledger64.transact
  cases Ledger64.record_of l.num_accounts amt frm to_ with
  | error u =>
    constructor
    · intro hc
      have hu : u = e := Except.error.inj hc
      rw [hu]
    · intro hc
      have hu : u = e := Except.error.inj hc
      rw [hu]
      rfl
  | ok r =>
    constructor
    · intro hc
      exact Except.noConfusion hc
    · intro hc
      exact Except.noConfusion hc

theorem transact64_ok_iff (l : Ledger64) (amt frm to_ : Int) :
    (∃ l', l.transact amt frm to_ = .ok l')
      ↔ inRange l.num_accounts frm ∧ inRange l.num_accounts to_
        ∧ int64Range (-amt) ∧ int64Range amt := by
  constructor
  · rintro ⟨l', h⟩
    rcases transact64_cases l l' amt frm to_ h with ⟨r, hrec, _, _⟩
    rcases record_of64_eq_ok _ _ _ _ _ hrec with ⟨_, h1, h2, h3, h4⟩
    exact ⟨h1, h2, h3, h4⟩
  · rintro ⟨h1, h2, h3, h4⟩
    exact ⟨_, transact64_of_record l amt frm to_ _ (record_of64_ok _ _ _ _ h1 h2 h3 h4)⟩

theorem compute_balances64_eq_sumLog (l : Ledger64) :
    l.compute_balances = sumLog64 l.transactions := rfl

theorem sumLog64_concat (ts : List (List Int)) (r : List Int) (h : ts ≠ []) :
    sumLog64 (ts ++ [r]) = vadd64 (sumLog64 ts) r := by
  cases ts with
  | nil => exact absurd rfl h
  | cons b t =>
    show sumLog64 (b :: (t ++ [r])) = vadd64 (sumLog64 (b :: t)) r
    simp only [sumLog64]
    rw [List.foldl_append]
    rfl

theorem cacheInv64_init (n : Nat) (start : Int) :
    cacheInv64 (Ledger64.init n start) := by
  constructor <;> simp [Ledger64.init, Ledger64.compute_balances]

theorem cacheInv64_transact (l l' : Ledger64) (amt frm to_ : Int)
    (hinv : cacheInv64 l) (h : l.transact amt frm to_ = .ok l') : cacheInv64 l' := by
  rcases transact64_eq_ok l l' amt frm to_ h with ⟨rec, ht, hr, _⟩
  constructor
  · rw [ht]; simp
  · rw [hr, compute_balances64_eq_sumLog, ht, sumLog64_concat _ _ hinv.1,
      ← compute_balances64_eq_sumLog, hinv.2]

theorem cacheInv64_runAll (txs : List (Int × Int × Int)) :
    ∀ l : Ledger64, cacheInv64 l → cacheInv64 (runAll64 l txs) := by
  induction txs with
  | nil => intro l h; exact h
  | cons tx rest ih =>
    intro l h
    refine ih (runTx64 l tx) ?_
    unfold runTx64
    cases htx : l.transact tx.1 tx.2.1 tx.2.2 with
    | error e => exact h
    | ok l' => exact cacheInv64_transact l l' _ _ _ h htx

theorem init64_num_accounts (n : Nat) (start : Int) :
    (Ledger64.init n start).num_accounts = n := rfl

theorem init64_transactions (n : Nat) (start : Int) :
    (Ledger64.init n start).transactions = [List.replicate n (wrap64 start)] := rfl

theorem init64_running_balance (n : Nat) (start : Int) :
    (Ledger64.init n start).running_balance = List.replicate n (wrap64 start) := rfl

/-! ## One int64 `transact` from a non-negative state inside the budget -/

theorem transact64_step (l l' : Ledger64) (amt frm to_ : Int)
    (hlen : l.running_balance.length = l.num_accounts)
    (hpos : ∀ x ∈ l.running_balance, 0 ≤ x)
    (hbound : l.running_balance.sum + |amt| < 2 ^ 63)
    (h : l.transact amt frm to_ = .ok l') :
    (∀ x ∈ l'.running_balance, 0 ≤ x)
      ∧ l'.running_balance.length = l'.num_accounts
      ∧ l'.num_accounts = l.num_accounts
      ∧ l'.running_balance.sum ≤ l.running_balance.sum + |amt|
      ∧ (wrappedIdx l.num_accounts frm ≠ wrappedIdx l.num_accounts to_ →
          l'.running_balance.sum = l.running_balance.sum
            ∧ ∃ rec : List Int,
                l'.transactions = l.transactions ++ [rec] ∧ rec.sum = 0) := by
  rcases transact64_cases l l' amt frm to_ h with ⟨r, hrec, hrlen, rfl⟩
  have hS := record_of64_bridge _ _ _ _ _ hrec
  have habs := abs_mem_record64_le _ _ _ _ _ hrec
  have hrange := mem_record64_int64Range _ _ _ _ _ hrec
  have habsamt : 0 ≤ |amt| := abs_nonneg amt
  have hsum0 : 0 ≤ l.running_balance.sum := List.sum_nonneg hpos
  have hzip : ∀ p ∈ List.zip l.running_balance r, int64Range (p.1 + p.2) := by
    intro p hp
    rcases List.of_mem_zip hp with ⟨hp1, hp2⟩
    have h1 : 0 ≤ p.1 := hpos _ hp1
    have h2 : p.1 ≤ l.running_balance.sum := List.single_le_sum hpos _ hp1
    have h3 := abs_le.mp (habs _ hp2)
    exact ⟨by omega, by omega⟩
  have hveq : vadd64 l.running_balance r = vadd l.running_balance r :=
    vadd64_eq_vadd _ _ hzip
  have hk0 := negCount_nonneg (vadd l.running_balance r)
  have hk1 := negCount_vadd_le l.running_balance r hpos
  have hk2 := negCount_record_le_one _ _ _ _ _ hS
  have hK : negCount (vadd l.running_balance r) = 0
      ∨ negCount (vadd l.running_balance r) = 1 := by omega
  have hramt := record64_sum _ _ _ _ _ hrec
  have hamtle : amt ≤ |amt| := le_abs_self amt
  rw [hveq]
  rcases hK with hK | hK
  · have hmask : SimpleLedger.neg_check (vadd l.running_balance r) = 1 := by
      unfold SimpleLedger.neg_check
      omega
    rw [hmask, vscale64_one r hrange, hveq]
    dsimp only
    have hok := (negCount_eq_zero_iff _).mp hK
    have hsum : (vadd l.running_balance r).sum
        = l.running_balance.sum + r.sum :=
      sum_vadd _ _ (by rw [hlen, hrlen])
    refine ⟨hok, ?_, rfl, by omega, fun hne => ?_⟩
    · show (vadd l.running_balance r).length = l.num_accounts
      rw [length_vadd, hlen, hrlen]
      omega
    · have hzero : r.sum = 0 := sum_record_of _ _ _ _ _ hS hne
      exact ⟨by omega, ⟨r, rfl, hzero⟩⟩
  · have hmask : SimpleLedger.neg_check (vadd l.running_balance r) = 0 := by
      unfold SimpleLedger.neg_check
      omega
    have hrbrange : ∀ x ∈ l.running_balance, int64Range x := by
      intro x hx
      have h1 := hpos x hx
      have h2 := List.single_le_sum hpos x hx
      exact ⟨by omega, by omega⟩
    rw [hmask, vscale64_zero,
      vadd64_replicate_zero l.running_balance hrbrange r.length (by omega)]
    dsimp only
    exact ⟨hpos, by rw [hlen], rfl, by omega,
      fun hne => ⟨rfl, ⟨List.replicate r.length 0, rfl, by simp⟩⟩⟩

/-! ## Whole runs of the int64 ledger inside an overflow-free budget -/

theorem amtBudget_nonneg (txs : List (Int × Int × Int)) : 0 ≤ amtBudget txs := by
  unfold amtBudget
  apply List.sum_nonneg
  intro x hx
  rcases List.mem_map.mp hx with ⟨tx, _, rfl⟩
  exact abs_nonneg _

theorem amtBudget_cons (tx : Int × Int × Int) (txs : List (Int × Int × Int)) :
    amtBudget (tx :: txs) = |tx.1| + amtBudget txs := by
  unfold amtBudget
  simp

theorem runAll64_nil (l : Ledger64) : runAll64 l [] = l := rfl

theorem runAll64_cons (l : Ledger64) (tx : Int × Int × Int)
    (rest : List (Int × Int × Int)) :
    runAll64 l (tx :: rest) = runAll64 (runTx64 l tx) rest := rfl

theorem runAll64_budget (txs : List (Int × Int × Int)) :
    ∀ l : Ledger64,
      l.running_balance.length = l.num_accounts →
      (∀ x ∈ l.running_balance, 0 ≤ x) →
      l.running_balance.sum + amtBudget txs < 2 ^ 63 →
      (∀ x ∈ (runAll64 l txs).running_balance, 0 ≤ x)
        ∧ (runAll64 l txs).running_balance.length = (runAll64 l txs).num_accounts
        ∧ (runAll64 l txs).num_accounts = l.num_accounts
        ∧ (runAll64 l txs).running_balance.sum
            ≤ l.running_balance.sum + amtBudget txs := by
  induction txs with
  | nil =>
    intro l h1 h2 _
    have h0 : amtBudget [] = 0 := rfl
    rw [runAll64_nil]
    exact ⟨h2, h1, rfl, by omega⟩
  | cons tx rest ih =>
    intro l h1 h2 h3
    rw [amtBudget_cons] at h3
    have habs : 0 ≤ |tx.1| := abs_nonneg _
    have hbn := amtBudget_nonneg rest
    rw [runAll64_cons, amtBudget_cons]
    cases htx : l.transact tx.1 tx.2.1 tx.2.2 with
    | error e =>
      have hid : runTx64 l tx = l := by unfold runTx64; rw [htx]
      rw [hid]
      have hrest := ih l h1 h2 (by omega)
      exact ⟨hrest.1, hrest.2.1, hrest.2.2.1, by omega⟩
    | ok l' =>
      have hrt : runTx64 l tx = l' := by unfold runTx64; rw [htx]
      have hstep := transact64_step l l' tx.1 tx.2.1 tx.2.2 h1 h2 (by omega) htx
      rw [hrt]
      have hrest := ih l' hstep.2.1 hstep.1 (by omega)
      refine ⟨hrest.1, hrest.2.1, hrest.2.2.1.trans hstep.2.2.1, by omega⟩

theorem runAll64_conserve (txs : List (Int × Int × Int)) :
    ∀ l : Ledger64,
      l.running_balance.length = l.num_accounts →
      (∀ x ∈ l.running_balance, 0 ≤ x) →
      l.running_balance.sum + amtBudget txs < 2 ^ 63 →
      (∀ tx ∈ txs,
        wrappedIdx l.num_accounts tx.2.1 ≠ wrappedIdx l.num_accounts tx.2.2) →
      (runAll64 l txs).running_balance.sum = l.running_balance.sum := by
  induction txs with
  | nil => intro l _ _ _ _; rw [runAll64_nil]
  | cons tx rest ih =>
    intro l h1 h2 h3 hd
    rw [amtBudget_cons] at h3
    have habs : 0 ≤ |tx.1| := abs_nonneg _
    have hbn := amtBudget_nonneg rest
    rw [runAll64_cons]
    cases htx : l.transact tx.1 tx.2.1 tx.2.2 with
    | error e =>
      have hid : runTx64 l tx = l := by unfold runTx64; rw [htx]
      rw [hid]
      exact ih l h1 h2 (by omega) (fun u hu => hd u (by simp [hu]))
    | ok l' =>
      have hrt : runTx64 l tx = l' := by unfold runTx64; rw [htx]
      have hstep := transact64_step l l' tx.1 tx.2.1 tx.2.2 h1 h2 (by omega) htx
      have hexact := (hstep.2.2.2.2 (hd tx (by simp))).1
      rw [hrt, ih l' hstep.2.1 hstep.1 (by omega)
        (by rw [hstep.2.2.1]; exact fun u hu => hd u (by simp [hu])), hexact]

theorem runAll64_zero_accounts (txs : List (Int × Int × Int)) :
    ∀ l : Ledger64, l.num_accounts = 0 → runAll64 l txs = l := by
  induction txs with
  | nil => intro l _; rfl
  | cons tx rest ih =>
    intro l h
    show runAll64 (runTx64 l tx) rest = l
    have ht : runTx64 l tx = l := by
      unfold runTx64
      cases htx : l.transact tx.1 tx.2.1 tx.2.2 with
      | error e => rfl
      | ok l' =>
        exfalso
        rcases transact64_cases l l' tx.1 tx.2.1 tx.2.2 htx with ⟨r, hrec, _, _⟩
        rcases record_of64_eq_ok _ _ _ _ _ hrec with ⟨_, hfr, _, _, _⟩
        unfold inRange at hfr
        rw [h] at hfr
        omega
    rw [ht]
    exact ih l h

theorem init64_running_eq (n : Nat) (start : Int) (h : int64Range start) :
    (Ledger64.init n start).running_balance = List.replicate n start := by
  rw [init64_running_balance, wrap64_eq_self start h.1 h.2]

/-! ## Error characterization and index shifting of the int64 record -/

theorem record_of64_indexError (n : Nat) (amt frm to_ : Int)
    (h3 : int64Range (-amt)) :
    Ledger64.record_of n amt frm to_ = .error .indexError
      ↔ ¬ (inRange n frm ∧ inRange n to_) := by
  by_cases hf : inRange n frm
  · unfold Ledger64.record_of
    rw [pySetI64_of_ok _ _ _ (by simpa using hf) h3]
    show pySetI64 _ to_ amt = .error .indexError ↔ _
    rw [pySetI64_indexError]
    simp [hf]
  · unfold Ledger64.record_of
    rw [(pySetI64_indexError _ _ _).mpr (by simpa using hf)]
    show (Except.error PyErr.indexError : Except PyErr (List Int))
        = .error .indexError ↔ _
    simp [hf]

theorem record_of64_overflow (n : Nat) (amt frm to_ : Int)
    (h1 : inRange n frm) (h2 : inRange n to_) :
    Ledger64.record_of n amt frm to_ = .error .overflowError
      ↔ ¬ (int64Range (-amt) ∧ int64Range amt) := by
  by_cases h3 : int64Range (-amt)
  · unfold Ledger64.record_of
    rw [pySetI64_of_ok _ _ _ (by simpa using h1) h3]
    show pySetI64 _ to_ amt = .error .overflowError ↔ _
    rw [pySetI64_overflow _ _ _ (by simpa using h2)]
    simp [h3]
  · unfold Ledger64.record_of
    rw [(pySetI64_overflow _ _ _ (by simpa using h1)).mpr h3]
    show (Except.error PyErr.overflowError : Except PyErr (List Int))
        = .error .overflowError ↔ _
    simp [h3]

theorem record_of64_shift_frm (n : Nat) (amt frm to_ : Int)
    (h0 : -(n : Int) ≤ frm) (h1 : frm < 0) :
    Ledger64.record_of n amt frm to_ = Ledger64.record_of n amt (frm + n) to_ := by
  unfold Ledger64.record_of
  have h := pySetI64_shift (List.replicate n (0 : Int)) frm (-amt)
    (by simpa using h0) h1
  simp only [List.length_replicate] at h
  rw [h]

theorem record_of64_shift_to (n : Nat) (amt frm to_ : Int)
    (h0 : -(n : Int) ≤ to_) (h1 : to_ < 0) :
    Ledger64.record_of n amt frm to_ = Ledger64.record_of n amt frm (to_ + n) := by
  unfold Ledger64.record_of
  cases h : pySetI64 (List.replicate n 0) frm (-amt) with
  | error e => rfl
  | ok r =>
    have hlen : r.length = n := by simpa using pySetI64_length _ _ _ _ h
    show pySetI64 r to_ amt = pySetI64 r (to_ + n) amt
    have hs := pySetI64_shift r to_ amt (by rw [hlen]; exact h0) h1
    rw [hs, hlen]

theorem transact64_reject (l : Ledger64) (amt frm to_ : Int) (r : List Int)
    (hrec : Ledger64.record_of l.num_accounts amt frm to_ = .ok r)
    (hrange : ∀ x ∈ l.running_balance, int64Range x)
    (hlen : l.running_balance.length ≤ r.length)
    (hone : negCount (vadd64 l.running_balance r) = 1) :
    l.transact amt frm to_ = .ok
      { l with
        transactions := l.transactions ++ [List.replicate r.length 0]
        running_balance := l.running_balance } := by
  have hmask : SimpleLedger.neg_check (vadd64 l.running_balance r) = 0 := by
    unfold SimpleLedger.neg_check
    omega
  rw [transact64_of_record l amt frm to_ r hrec, hmask, vscale64_zero,
    vadd64_replicate_zero l.running_balance hrange r.length hlen]

/-- C3 as stated is false: for a self-transfer `transact(5, 0, 0)` the second
assignment `record[to] = amt` overwrites the first, so the record is
`[5, 0]`, not all-zero; it validates and account 0 gains 5 out of thin air,
so balances change. -/
theorem claim3_counterexample :
    ((Ledger64.init 2 100).transact 5 0 0).map Ledger64.transactions
        = .ok [[100, 100], [5, 0]]
      ∧ ((Ledger64.init 2 100).transact 5 0 0).map Ledger64.compute_balances
        = .ok [105, 100]
      ∧ ([5, 0] : List Int) ≠ [0, 0]
      ∧ ([105, 100] : List Int) ≠ [100, 100] := by decide

/-- C3 amended: `transact(amount, i, i)` builds a record whose only possibly
non-zero entry is `+amount` at index `i` (the credit assignment overwrites
the debit); from a state with non-negative balances, for `0 ≤ amount < 2^63`
small enough that no candidate entry reaches `2^63` (no int64 wrap), it
always validates and adds `amount` to account `i` without wrapping — a no-op
only when `amount = 0`. -/
theorem claim3_self_transfer (l : Ledger64) (amt i : Int)
    (h0 : 0 ≤ i) (h1 : i < (l.num_accounts : Int))
    (hpos : ∀ x ∈ l.running_balance, 0 ≤ x)
    (hamt : 0 ≤ amt) (hamt2 : amt < 2 ^ 63)
    (hnowrap : ∀ x ∈ l.running_balance, x + amt < 2 ^ 63) :
    l.transact amt i i = .ok
      { l with
        transactions :=
          l.transactions ++ [(List.replicate l.num_accounts 0).set i.toNat amt]
        running_balance :=
          vadd l.running_balance
            ((List.replicate l.num_accounts 0).set i.toNat amt) } := by
  have hw : wrappedIdx l.num_accounts i = i.toNat := by
    unfold wrappedIdx
    rw [if_pos h0]
  have hrec := record_of64_ok l.num_accounts amt i i ⟨by omega, h1⟩ ⟨by omega, h1⟩
    ⟨by omega, by omega⟩ ⟨by omega, by omega⟩
  rw [hw, List.set_set] at hrec
  have hmem : ∀ y ∈ (List.replicate l.num_accounts (0 : Int)).set i.toNat amt,
      y = 0 ∨ y = amt := fun y hy => mem_set_replicate _ _ _ _ hy
  have hrpos : ∀ y ∈ (List.replicate l.num_accounts (0 : Int)).set i.toNat amt,
      0 ≤ y := by
    intro y hy
    rcases hmem y hy with rfl | rfl <;> omega
  have hrrange : ∀ y ∈ (List.replicate l.num_accounts (0 : Int)).set i.toNat amt,
      int64Range y := by
    intro y hy
    rcases hmem y hy with rfl | rfl <;> exact ⟨by omega, by omega⟩
  have hzip : ∀ p ∈ List.zip l.running_balance
      ((List.replicate l.num_accounts (0 : Int)).set i.toNat amt),
      int64Range (p.1 + p.2) := by
    intro p hp
    rcases List.of_mem_zip hp with ⟨hp1, hp2⟩
    have h2 := hpos _ hp1
    have h3 := hnowrap _ hp1
    rcases hmem _ hp2 with h4 | h4 <;> rw [h4] <;> exact ⟨by omega, by omega⟩
  have hveq := vadd64_eq_vadd _ _ hzip
  have hok := mem_vadd_nonneg _ _ hpos hrpos
  have hmask : SimpleLedger.neg_check
      (vadd64 l.running_balance
        ((List.replicate l.num_accounts (0 : Int)).set i.toNat amt)) = 1 := by
    rw [hveq]
    unfold SimpleLedger.neg_check
    rw [(negCount_eq_zero_iff _).mpr hok]
    decide
  rw [transact64_of_record l amt i i _ hrec, hmask, vscale64_one _ hrrange, hveq]

theorem claim3_self_transfer_is_satisfiable :
    (Ledger64.init 2 100).transact 5 0 0 = .ok
      { num_accounts := 2
        transactions := [[100, 100], [5, 0]]
        running_balance := [105, 100] } := by
  rw [claim3_self_transfer (Ledger64.init 2 100) 5 0 (by decide) (by decide)
    (by decide) (by decide) (by decide) (by decide)]
  decide

/-- C4 as stated is false: `transact` performs none of the claimed
validations. `transact(-5, 0, 1)` (`amount ≤ 0`) raises nothing and commits
a reverse transfer of 5, and `transact(5, -1, 0)` (`from` outside `[0, N)`)
raises nothing either. -/
theorem claim4_counterexample :
    ((Ledger64.init 2 100).transact (-5) 0 1).map Ledger64.compute_balances
        = .ok [105, 95]
      ∧ ((Ledger64.init 2 100).transact 5 (-1) 0).map Ledger64.compute_balances
        = .ok [105, 95] := by decide

/-- C4 amended: `transact` performs no amount-sign or sufficiency validation
of its own — any storable amount, including `amount ≤ 0`, is accepted and
processed.  Its failures come from the two stores of record construction:
with a storable amount (`-amt` and `amt` both in int64 range) it raises
`IndexError` exactly when `from` or `to` lies outside `[-N, N)`; with
in-range indices it raises the torch overflow error exactly when the amount
is not storable; it succeeds exactly when indices are in `[-N, N)` and the
amount is storable; and when any error is raised nothing has been appended —
the ledger is unchanged. -/
theorem claim4_no_validation (l : Ledger64) (amt frm to_ : Int) :
    ((∃ l', l.transact amt frm to_ = .ok l')
        ↔ inRange l.num_accounts frm ∧ inRange l.num_accounts to_
          ∧ int64Range (-amt) ∧ int64Range amt)
      ∧ (int64Range (-amt) →
          (l.transact amt frm to_ = .error .indexError
            ↔ ¬ (inRange l.num_accounts frm ∧ inRange l.num_accounts to_)))
      ∧ (inRange l.num_accounts frm → inRange l.num_accounts to_ →
          (l.transact amt frm to_ = .error .overflowError
            ↔ ¬ (int64Range (-amt) ∧ int64Range amt)))
      ∧ (∀ e : PyErr, l.transact amt frm to_ = .error e →
          runTx64 l (amt, frm, to_) = l) := by
  refine ⟨transact64_ok_iff l amt frm to_, ?_, ?_, ?_⟩
  · intro h3
    rw [transact64_error_iff]
    exact record_of64_indexError l.num_accounts amt frm to_ h3
  · intro h1 h2
    rw [transact64_error_iff]
    exact record_of64_overflow l.num_accounts amt frm to_ h1 h2
  · intro e he
    show (match l.transact amt frm to_ with
      | .ok u => u
      | .error _ => l) = l
    rw [he]

theorem claim4_no_validation_is_satisfiable :
    (Ledger64.init 2 100).transact 5 5 0 = .error .indexError :=
  ((claim4_no_validation (Ledger64.init 2 100) 5 5 0).2.1 (by decide)).mpr (by decide)

/-- C5 as stated is false: a self-transfer `transact(5, 0, 0)` appends the
record `[5, 0]`, whose entries sum to `5 ≠ 0`, and the total balance
afterwards is `205 ≠ 2 * 100`. -/
theorem claim5_counterexample :
    ((Ledger64.init 2 100).transact 5 0 0).map Ledger64.transactions
        = .ok [[100, 100], [5, 0]]
      ∧ ([5, 0] : List Int).sum = 5
      ∧ (5 : Int) ≠ 0
      ∧ ((Ledger64.init 2 100).transact 5 0 0).map
          (fun l => l.compute_balances.sum) = .ok 205
      ∧ (205 : Int) ≠ 2 * 100 := by decide

/-- C5 amended: in the overflow-free regime, every record appended by a
`transact` whose wrapped `from` and `to` positions differ sums to zero
across its `N` entries: from a non-negative state whose total plus `|amount|`
stays below `2^63`, and likewise after any sequence of such `transact` calls
whose total amount budget `N*start + Σ|amount|` stays below `2^63`, the total
balance equals `N * starting_balance`.  (With amounts large enough to wrap —
e.g. `2^63 - 1` — the committed record no longer sums to zero and the total
is not conserved.) -/
theorem claim5_conservation :
    (∀ (l l' : Ledger64) (amt frm to_ : Int),
        l.running_balance.length = l.num_accounts →
        (∀ x ∈ l.running_balance, 0 ≤ x) →
        l.running_balance.sum + |amt| < 2 ^ 63 →
        wrappedIdx l.num_accounts frm ≠ wrappedIdx l.num_accounts to_ →
        l.transact amt frm to_ = .ok l' →
        ∃ rec : List Int,
          l'.transactions = l.transactions ++ [rec] ∧ rec.sum = 0)
      ∧ (∀ (n : Nat) (start : Int) (txs : List (Int × Int × Int)),
          0 ≤ start →
          (n : Int) * start + amtBudget txs < 2 ^ 63 →
          (∀ tx ∈ txs, wrappedIdx n tx.2.1 ≠ wrappedIdx n tx.2.2) →
          (runAll64 (Ledger64.init n start) txs).compute_balances.sum
            = n * start) := by
  constructor
  · intro l l' amt frm to_ hlen hpos hb hne h
    exact ((transact64_step l l' amt frm to_ hlen hpos hb h).2.2.2.2 hne).2
  · intro n start txs h0 hb hd
    cases n with
    | zero =>
      rw [runAll64_zero_accounts txs _ rfl]
      simp [Ledger64.init, Ledger64.compute_balances]
    | succ m =>
      have hbn := amtBudget_nonneg txs
      have hstart : int64Range start := by
        have hle : start ≤ ((m + 1 : Nat) : Int) * start :=
          le_mul_of_one_le_left h0 (by push_cast; omega)
        exact ⟨by omega, by omega⟩
      have hrbeq := init64_running_eq (m + 1) start hstart
      have hlen : (Ledger64.init (m + 1) start).running_balance.length
          = (Ledger64.init (m + 1) start).num_accounts := by
        rw [hrbeq, init64_num_accounts, List.length_replicate]
      have hpos : ∀ x ∈ (Ledger64.init (m + 1) start).running_balance, 0 ≤ x := by
        rw [hrbeq]
        intro x hx
        rw [List.eq_of_mem_replicate hx]
        exact h0
      have hsum : (Ledger64.init (m + 1) start).running_balance.sum
          = ((m + 1 : Nat) : Int) * start := by
        rw [hrbeq, List.sum_replicate]
        simp [nsmul_eq_mul]
      have hcon := runAll64_conserve txs (Ledger64.init (m + 1) start) hlen hpos
        (by rw [hsum]; exact hb)
        (by rw [init64_num_accounts]; exact hd)
      have hcache := cacheInv64_runAll txs _ (cacheInv64_init (m + 1) start)
      rw [← hcache.2, hcon, hsum]

theorem claim5_conservation_is_satisfiable :
    (runAll64 (Ledger64.init 2 100) [(5, 0, 1)]).compute_balances.sum
      = 2 * 100 := by
  have h := claim5_conservation.2 2 100 [(5, 0, 1)] (by decide) (by decide)
    (by decide)
  simpa using h

/-- C6 as stated is false of the int64 program: with unrestricted amounts,
`transact(2^63 - 1, 0, 1)` from the fresh `[100, 100]` ledger wraps both
candidate entries negative, the mask becomes `-1`, the scaled record is
committed, and the revealed balances `[99 - 2^63, 101 - 2^63]` are negative. -/
theorem claim6_counterexample :
    (Ledger64.init 2 100).running_balance = [100, 100]
      ∧ ((Ledger64.init 2 100).transact (2 ^ 63 - 1) 0 1).map
          Ledger64.compute_balances = .ok [99 - 2 ^ 63, 101 - 2 ^ 63]
      ∧ ((99 : Int) - 2 ^ 63 < 0) := by decide

/-- C6 amended: for every ledger created with a non-negative starting
balance, every state reachable by a sequence of `transact` calls whose total
amount budget `N*start + Σ|amount|` stays below `2^63` (so that no int64
wrap can occur) has only non-negative revealed balances; failed calls are
skipped.  Amounts beyond that budget can wrap and drive balances negative. -/
theorem claim6_nonnegativity (n : Nat) (start : Int)
    (txs : List (Int × Int × Int)) (h0 : 0 ≤ start)
    (hb : (n : Int) * start + amtBudget txs < 2 ^ 63) :
    ∀ x ∈ (runAll64 (Ledger64.init n start) txs).compute_balances, 0 ≤ x := by
  cases n with
  | zero =>
    rw [runAll64_zero_accounts txs _ rfl]
    intro x hx
    simp [Ledger64.init, Ledger64.compute_balances] at hx
  | succ m =>
    have hbn := amtBudget_nonneg txs
    have hstart : int64Range start := by
      have hle : start ≤ ((m + 1 : Nat) : Int) * start :=
        le_mul_of_one_le_left h0 (by push_cast; omega)
      exact ⟨by omega, by omega⟩
    have hrbeq := init64_running_eq (m + 1) start hstart
    have hlen : (Ledger64.init (m + 1) start).running_balance.length
        = (Ledger64.init (m + 1) start).num_accounts := by
      rw [hrbeq, init64_num_accounts, List.length_replicate]
    have hpos : ∀ x ∈ (Ledger64.init (m + 1) start).running_balance, 0 ≤ x := by
      rw [hrbeq]
      intro x hx
      rw [List.eq_of_mem_replicate hx]
      exact h0
    have hsum : (Ledger64.init (m + 1) start).running_balance.sum
        = ((m + 1 : Nat) : Int) * start := by
      rw [hrbeq, List.sum_replicate]
      simp [nsmul_eq_mul]
    have hrun := runAll64_budget txs (Ledger64.init (m + 1) start) hlen hpos
      (by rw [hsum]; exact hb)
    have hcache := cacheInv64_runAll txs _ (cacheInv64_init (m + 1) start)
    intro x hx
    rw [← hcache.2] at hx
    exact hrun.1 x hx

theorem claim6_nonnegativity_is_satisfiable : (0 : Int) ≤ 100 :=
  claim6_nonnegativity 2 100 [(300, 0, 1)] (by decide) (by decide) 100 (by decide)

/-- C7 as stated is false: from a ledger seeded with a negative starting
balance, the same over-limit transfer (candidate `[-2, 0, -1]` has a
negative entry) submitted twice changes the balances each time — the mask is
negative, the scaled record is committed, and the two observed balance
vectors differ. -/
theorem claim7_counterexample :
    (Ledger64.init 3 (-1)).compute_balances = [-1, -1, -1]
      ∧ Ledger64.record_of 3 1 0 1 = .ok [-1, 1, 0]
      ∧ vadd64 (Ledger64.init 3 (-1)).running_balance [-1, 1, 0] = [-2, 0, -1]
      ∧ ((-2 : Int) < 0)
      ∧ ((Ledger64.init 3 (-1)).transact 1 0 1).map Ledger64.compute_balances
        = .ok [0, -2, -1]
      ∧ (((Ledger64.init 3 (-1)).transact 1 0 1).bind
            (fun l => l.transact 1 0 1)).map Ledger64.compute_balances
        = .ok [2, -4, -1] := by decide

/-- C7 amended: for every ledger state with coherent cache, entrywise
non-negative running balance, and total plus `|amount|` below `2^63` (no
int64 wrap for this call), an over-limit transfer — one whose candidate
balance has a negative entry — submitted twice is rejected both times: both
calls succeed, and the balances after each call equal the balances before
either call. -/
theorem claim7_rejection_idempotent (l : Ledger64) (amt frm to_ : Int)
    (r : List Int)
    (hlen : l.running_balance.length = l.num_accounts)
    (hpos : ∀ x ∈ l.running_balance, 0 ≤ x)
    (hcache : cacheInv64 l)
    (hbound : l.running_balance.sum + |amt| < 2 ^ 63)
    (hrec : Ledger64.record_of l.num_accounts amt frm to_ = .ok r)
    (hover : ∃ x ∈ vadd64 l.running_balance r, x < 0) :
    ∃ l1 l2 : Ledger64,
      l.transact amt frm to_ = .ok l1
        ∧ l1.transact amt frm to_ = .ok l2
        ∧ l1.running_balance = l.running_balance
        ∧ l2.running_balance = l.running_balance
        ∧ l1.compute_balances = l.compute_balances
        ∧ l2.compute_balances = l.compute_balances := by
  have hS := record_of64_bridge _ _ _ _ _ hrec
  have habs := abs_mem_record64_le _ _ _ _ _ hrec
  have habsamt : 0 ≤ |amt| := abs_nonneg amt
  have hsum0 : 0 ≤ l.running_balance.sum := List.sum_nonneg hpos
  have hzip : ∀ p ∈ List.zip l.running_balance r, int64Range (p.1 + p.2) := by
    intro p hp
    rcases List.of_mem_zip hp with ⟨hp1, hp2⟩
    have h1 := hpos _ hp1
    have h2 := List.single_le_sum hpos _ hp1
    have h3 := abs_le.mp (habs _ hp2)
    exact ⟨by omega, by omega⟩
  have hveq : vadd64 l.running_balance r = vadd l.running_balance r :=
    vadd64_eq_vadd _ _ hzip
  have hrbrange : ∀ x ∈ l.running_balance, int64Range x := by
    intro x hx
    have h1 := hpos x hx
    have h2 := List.single_le_sum hpos x hx
    exact ⟨by omega, by omega⟩
  have hone : negCount (vadd64 l.running_balance r) = 1 := by
    rw [hveq]
    rw [hveq] at hover
    have hk0 := (negCount_pos_iff (vadd l.running_balance r)).mpr hover
    have hk1 := negCount_vadd_le l.running_balance r hpos
    have hk2 := negCount_record_le_one _ _ _ _ _ hS
    omega
  have hrl : l.running_balance.length ≤ r.length := by
    rw [hlen, record_of64_length _ _ _ _ _ hrec]
  have h1 := transact64_reject l amt frm to_ r hrec hrbrange hrl hone
  have hc1 : cacheInv64 ({ l with
      transactions := l.transactions ++ [List.replicate r.length 0]
      running_balance := l.running_balance } : Ledger64) :=
    cacheInv64_transact _ _ _ _ _ hcache h1
  have h2 := transact64_reject ({ l with
      transactions := l.transactions ++ [List.replicate r.length 0]
      running_balance := l.running_balance } : Ledger64) amt frm to_ r hrec
    hrbrange hrl hone
  have hc2 := cacheInv64_transact _ _ _ _ _ hc1 h2
  exact ⟨_, _, h1, h2, rfl, rfl, hc1.2.symm.trans hcache.2,
    hc2.2.symm.trans hcache.2⟩

theorem claim7_rejection_idempotent_is_satisfiable :
    ((Ledger64.init 2 100).transact 200 0 1).map Ledger64.running_balance
      = .ok [100, 100] := by
  obtain ⟨l1, l2, h1, h2, hr1, hr2, hc1, hc2⟩ :=
    claim7_rejection_idempotent (Ledger64.init 2 100) 200 0 1 [-200, 200]
      (by decide) (by decide) (by decide) (by decide) (by decide) (by decide)
  rw [h1]
  show Except.ok (l1.running_balance) = .ok [100, 100]
  rw [hr1]
  rfl

/-- C8 as stated is false: an amount outside the int64 domain is not
"rejected exactly as an ordinary insufficient-funds transfer".  Storing the
Python int `2^63` into the record raises the torch overflow error — a
separate failure path, with no zero record appended — whereas an ordinary
insufficiency appends the masked all-zero record.  Moreover the storable
amount `2^63 - 1`, which overflows during the candidate addition, is
committed (mask `-1`) and changes the balances. -/
theorem claim8_counterexample :
    (Ledger64.init 2 100).transact (2 ^ 63) 0 1 = .error .overflowError
      ∧ ((Ledger64.init 2 100).transact 200 0 1).map Ledger64.transactions
        = .ok [[100, 100], [0, 0]]
      ∧ (Ledger64.init 2 100).transact (2 ^ 63) 0 1
        ≠ (Ledger64.init 2 100).transact 200 0 1
      ∧ ((Ledger64.init 2 100).transact (2 ^ 63 - 1) 0 1).map
          Ledger64.running_balance = .ok [99 - 2 ^ 63, 101 - 2 ^ 63]
      ∧ ([99 - 2 ^ 63, 101 - 2 ^ 63] : List Int) ≠ [100, 100] := by decide

/-- C8 amended: tensor arithmetic is modulo `2^64`, but a Python int stored
into the record is not wrapped: with in-range indices, an amount outside the
int64 domain makes `transact` raise the torch overflow error during record
construction — an exception, not the silent all-zero masking of an ordinary
insufficiency — and nothing is appended.  A storable amount that overflows
only during the candidate addition (e.g. `2^63 - 1`) is not rejected at all:
the mask becomes `-1` and the wrapped record is committed, changing the
balances. -/
theorem claim8_overflow_behavior :
    (∀ (l : Ledger64) (amt frm to_ : Int),
        inRange l.num_accounts frm → inRange l.num_accounts to_ →
        ¬ (int64Range (-amt) ∧ int64Range amt) →
        l.transact amt frm to_ = .error .overflowError
          ∧ runTx64 l (amt, frm, to_) = l)
      ∧ ((Ledger64.init 2 100).transact (2 ^ 63 - 1) 0 1).map
          Ledger64.running_balance = .ok [99 - 2 ^ 63, 101 - 2 ^ 63] := by
  constructor
  · intro l amt frm to_ h1 h2 h3
    have he : l.transact amt frm to_ = .error .overflowError :=
      (transact64_error_iff _ _ _ _ _).mpr
        ((record_of64_overflow _ _ _ _ h1 h2).mpr h3)
    refine ⟨he, ?_⟩
    show (match l.transact amt frm to_ with
      | .ok u => u
      | .error _ => l) = l
    rw [he]
  · decide

theorem claim8_overflow_behavior_is_satisfiable :
    (Ledger64.init 2 100).transact (2 ^ 63) 0 1 = .error .overflowError :=
  (claim8_overflow_behavior.1 (Ledger64.init 2 100) (2 ^ 63) 0 1
    (by decide) (by decide) (by decide)).1

/-- C10 as stated is false: it claims `transact(amount, from, to)` never
fails for any amount once `from ∈ [-N, -1]`, but the amount `2^63` cannot be
stored into the int64 record, so `transact(2^63, -1, 0)` raises the torch
overflow error even though both indices are in range. -/
theorem claim10_counterexample :
    (Ledger64.init 2 100).transact (2 ^ 63) (-1) 0 = .error .overflowError
      ∧ inRange 2 (-1) ∧ inRange 2 0 := by decide

/-- C10 amended: negative indices in `[-N, -1]` wrap around (Python
semantics): `transact` with a negative `from` (or `to`) behaves identically
to `transact` with `N + from` (`N + to`), errors included.  For every
storable amount (`-amt` and `amt` in int64 range) and indices in `[-N, N)`
the call succeeds, silently debiting the wrapped position; an `IndexError`
is raised only when an index is `≥ N` or `< -N` — but an amount outside the
int64 domain raises an overflow error even with in-range indices. -/
theorem claim10_negative_index_wraparound :
    (∀ (l : Ledger64) (amt frm to_ : Int),
        -(l.num_accounts : Int) ≤ frm → frm < 0 →
        l.transact amt frm to_ = l.transact amt (frm + l.num_accounts) to_)
      ∧ (∀ (l : Ledger64) (amt frm to_ : Int),
        -(l.num_accounts : Int) ≤ to_ → to_ < 0 →
        l.transact amt frm to_ = l.transact amt frm (to_ + l.num_accounts))
      ∧ (∀ (l : Ledger64) (amt frm to_ : Int),
          inRange l.num_accounts frm → inRange l.num_accounts to_ →
          int64Range (-amt) → int64Range amt →
          ∃ l', l.transact amt frm to_ = .ok l')
      ∧ (∀ (l : Ledger64) (amt frm to_ : Int),
          l.transact amt frm to_ = .error .indexError →
          ¬ inRange l.num_accounts frm ∨ ¬ inRange l.num_accounts to_) := by
  refine ⟨?_, ?_, ?_, ?_⟩
  · intro l amt frm to_ hge hlt
    unfold Ledger64.transact
    rw [record_of64_shift_frm l.num_accounts amt frm to_ hge hlt]
  · intro l amt frm to_ hge hlt
    unfold Ledger64.transact
    rw [record_of64_shift_to l.num_accounts amt frm to_ hge hlt]
  · intro l amt frm to_ h1 h2 h3 h4
    exact (transact64_ok_iff l amt frm to_).mpr ⟨h1, h2, h3, h4⟩
  · intro l amt frm to_ h
    have hr := (transact64_error_iff _ _ _ _ _).mp h
    by_cases hf : inRange l.num_accounts frm
    · right
      unfold Ledger64.record_of at hr
      by_cases hv : int64Range (-amt)
      · rw [pySetI64_of_ok _ _ _ (by simpa using hf) hv] at hr
        have hr2 : pySetI64 ((List.replicate l.num_accounts 0).set
            (wrappedIdx (List.replicate l.num_accounts (0 : Int)).length frm)
            (-amt)) to_ amt = .error .indexError := hr
        have hto := (pySetI64_indexError _ _ _).mp hr2
        simpa using hto
      · rw [(pySetI64_overflow _ _ _ (by simpa using hf)).mpr hv] at hr
        have hcon : PyErr.overflowError = PyErr.indexError := Except.error.inj hr
        exact absurd hcon (by decide)
    · exact Or.inl hf

theorem claim10_negative_index_wraparound_is_satisfiable :
    (Ledger64.init 3 100).transact 5 (-1) 0
      = (Ledger64.init 3 100).transact 5 2 0 :=
  (claim10_negative_index_wraparound.1 (Ledger64.init 3 100) 5 (-1) 0
    (by decide) (by decide)).trans (by decide)
